import Mathlib

/-!
Verification development for the `calculator` repository (`src/main.rs`).

The core under verification is the expression-buffer state machine of
`AppState::update`:

* the append loop (main.rs lines 92-99): a pressed key's `expression`
  string is appended to the buffer, after resetting a buffer that holds
  the error marker `"Error"`;
* the Enter handler (lines 102-106): the buffer, with every `×` replaced
  by `*`, is handed to an expression evaluator, and the formatted result
  (or `"Error"` on failure) replaces the buffer;
* the `C` handler (lines 109-111): the buffer is cleared;
* the Backspace handler (lines 114-121): the buffer is trimmed of
  trailing whitespace and then rebuilt from its grapheme clusters,
  keeping each cluster whose starting byte index differs from the byte
  length of the whole (trimmed) string.

Strings are modelled as `List Char` (Unicode scalar values).  Every
character reachable in this application's buffer (ASCII plus `×`) forms
a single-scalar grapheme cluster, so grapheme clusters are identified
with characters; byte indices are modelled by the UTF-8 encoded size of
each scalar.

The arithmetic evaluator (`meval::eval_str`) and the result formatting
(`f64::to_string`) are library code that is not part of this repository;
they are modelled from the specification (see the doc comments marked
"Modelled from the spec"), over exact rational arithmetic.
-/

/-- Character list of a string literal (strings are modelled as `List Char`). -/
def str (s : String) : List Char := s.data

/-- The error marker text placed in the buffer when evaluation fails
(main.rs line 105). -/
def errorMarker : List Char := str "Error"

/-- Whitespace test used for Rust's `str::trim_end` (main.rs line 115).
Rust uses the Unicode `White_Space` property; only these ASCII whitespace
characters can ever reach this application's buffer. -/
def isWsChar (c : Char) : Bool := c = ' ' || c = '\t' || c = '\n' || c = '\r'

/-- Decimal digit test (`'0'` through `'9'`). -/
def isDigitChar (c : Char) : Bool := 48 ≤ c.toNat && c.toNat ≤ 57

/-- Numeric value of a decimal digit character. -/
def charToDigit (c : Char) : ℕ := c.toNat - 48

/-- Decimal digit character of a value below ten. -/
def digitChar (d : ℕ) : Char :=
  match d with
  | 0 => '0' | 1 => '1' | 2 => '2' | 3 => '3' | 4 => '4'
  | 5 => '5' | 6 => '6' | 7 => '7' | 8 => '8' | _ => '9'

/-- Number of bytes of a scalar value in UTF-8, the encoding of Rust
strings; byte indices reported by `grapheme_indices` count these. -/
def charBytes (c : Char) : ℕ :=
  if c.toNat < 128 then 1
  else if c.toNat < 2048 then 2
  else if c.toNat < 65536 then 3
  else 4

/-- Byte length of a string in UTF-8 (Rust's `str::len`, main.rs line 119). -/
def utf8Len (l : List Char) : ℕ := (l.map charBytes).sum

/-- Rust's `str::trim_end` (main.rs line 115): remove trailing whitespace. -/
def trimEnd (l : List Char) : List Char := (l.reverse.dropWhile isWsChar).reverse

/-- The pairs produced by `grapheme_indices(true)` (main.rs line 118):
each grapheme cluster together with its starting byte offset.  Every
reachable cluster is a single scalar, so this pairs each character with
its byte offset. -/
def graphemeIndicesAux (off : ℕ) : List Char → List (ℕ × Char)
  | [] => []
  | c :: cs => (off, c) :: graphemeIndicesAux (off + charBytes c) cs

/-- The Backspace handler (main.rs lines 114-121): trim trailing
whitespace, then keep exactly the graphemes whose starting byte index
differs from the byte length of the trimmed string (the filter written
in the source as `index != self.expression.len()`). -/
def codeBackspace (b : List Char) : List Char :=
  let t := trimEnd b
  ((graphemeIndicesAux 0 t).filter (fun p => p.1 != utf8Len t)).map Prod.snd

/-- The append loop body (main.rs lines 92-99): a buffer equal to the
error marker is reset to empty, then the key's expression is appended. -/
def appendTok (b tok : List Char) : List Char :=
  (if b = errorMarker then [] else b) ++ tok

/-- The `expression` strings of the seventeen entries of `KEYS`
(main.rs lines 39-61). -/
def validTokens : List (List Char) :=
  [str "1", str "2", str "3", str "4", str "5", str "6", str "7",
   str "8", str "9", str "0", str "(", str ")", str " ^ ", str " + ",
   str " - ", str " × ", str " / "]

/-- Rust's `str::replace` specialised to the single-scalar pattern used
at main.rs line 103: replace every occurrence of one character. -/
def replaceCharAll (p r : Char) : List Char → List Char
  | [] => []
  | c :: cs => (if c = p then r else c) :: replaceCharAll p r cs

/-- The glyph normalisation performed by the Enter handler
(main.rs line 103): `self.expression.replace("×", "*")`. -/
def replaceMul (b : List Char) : List Char := replaceCharAll '×' '*' b

/-- Modelled from the spec: the normalisation the specification claims,
substituting both display glyphs (`×` to `*` and `÷` to `/`), stated for
comparison with `replaceMul`, the normalisation the source performs. -/
def specNormalize (b : List Char) : List Char :=
  b.map (fun c => if c = '×' then '*' else if c = '÷' then '/' else c)

/-- Token of the arithmetic expression language.  Modelled from the spec
(§4.2): numbers, the binary operators `+ - * / ^`, and parentheses.
Number tokens carry their exact rational value. -/
inductive Tok
  | num (q : ℚ)
  | plus | minus | star | slash | caret | lparen | rparen
deriving DecidableEq

/-- Token of a single operator or parenthesis character. -/
def charTok (c : Char) : Option Tok :=
  if c = '+' then some Tok.plus
  else if c = '-' then some Tok.minus
  else if c = '*' then some Tok.star
  else if c = '/' then some Tok.slash
  else if c = '^' then some Tok.caret
  else if c = '(' then some Tok.lparen
  else if c = ')' then some Tok.rparen
  else none

/-- Value of a number token with integer part `ip` and `k` fractional
digits of combined value `f`. -/
def numTok (ip f k : ℕ) : Tok := Tok.num ((ip : ℚ) + (f : ℚ) / 10 ^ k)

/-- Lexer state: at top level, inside the integer part of a number, or
inside the fractional part of a number. -/
inductive LexMode
  | top
  | innum (n : ℕ)
  | infrac (ip f k : ℕ)

/-- Tokens emitted when the current lexer state ends, prepended to the
tokens of the rest of the input; a fractional part needs at least one
digit. -/
def flushTok : LexMode → List Tok → Option (List Tok)
  | LexMode.top, ts => some ts
  | LexMode.innum n, ts => some (Tok.num (n : ℚ) :: ts)
  | LexMode.infrac ip f k, ts =>
      if k = 0 then none else some (numTok ip f k :: ts)

/-- Modelled from the spec (§4.2 steps 1-3): the tokenizer of the
arithmetic parser that `meval::eval_str` provides (the `meval` crate is
not part of this repository).  Whitespace is insignificant; numeric
literals are digit runs with an optional fractional part; any other
character that is not one of the operators or parentheses is a lexing
failure (which the Enter handler reports as the error marker). -/
def tokA (mode : LexMode) : List Char → Option (List Tok)
  | [] => flushTok mode []
  | c :: cs =>
    if isWsChar c then (tokA LexMode.top cs).bind (fun ts => flushTok mode ts)
    else if isDigitChar c then
      match mode with
      | LexMode.top => tokA (LexMode.innum (charToDigit c)) cs
      | LexMode.innum n => tokA (LexMode.innum (10 * n + charToDigit c)) cs
      | LexMode.infrac ip f k => tokA (LexMode.infrac ip (10 * f + charToDigit c) (k + 1)) cs
    else if c = '.' then
      match mode with
      | LexMode.innum n => tokA (LexMode.infrac n 0 0) cs
      | _ => none
    else
      match charTok c with
      | some t => (tokA LexMode.top cs).bind (fun ts => flushTok mode (t :: ts))
      | none => none

/-- Modelled from the spec: exponentiation.  The spec's evaluator works
over floating-point reals; this rational model supports the integral
exponents and treats a non-finite or irrational power (zero to a
negative power, fractional exponents) as an evaluation failure. -/
def qpow (a b : ℚ) : Option ℚ :=
  if b.den = 1 then
    if 0 ≤ b.num then some (a ^ b.num.toNat)
    else if a = 0 then none
    else some (a⁻¹ ^ b.num.natAbs)
  else none

/-- Parsing job of the recursive-descent parser: a grammar level paired
with its pending input (and left operand for the operator loops). -/
inductive PJob
  | expr (ts : List Tok)
  | exprRest (a : ℚ) (ts : List Tok)
  | term (ts : List Tok)
  | termRest (a : ℚ) (ts : List Tok)
  | unary (ts : List Tok)
  | pw (ts : List Tok)
  | pwRest (a : ℚ) (ts : List Tok)
  | atom (ts : List Tok)

/-- Modelled from the spec (§4.2 steps 2-3): recursive-descent parser
and evaluator for the documented grammar — binary `+ - * / ^`, unary
minus, parentheses, conventional precedence, left associativity except
for `^` which is right-associative.  Division by zero (a non-finite
result) is an evaluation failure.  The first argument is recursion
fuel. -/
def parseF : ℕ → PJob → Option (ℚ × List Tok)
  | 0, _ => none
  | f + 1, j =>
    match j with
    | PJob.expr ts => (parseF f (PJob.term ts)).bind (fun p => parseF f (PJob.exprRest p.1 p.2))
    | PJob.exprRest a ts =>
      match ts with
      | Tok.plus :: ts => (parseF f (PJob.term ts)).bind (fun p => parseF f (PJob.exprRest (a + p.1) p.2))
      | Tok.minus :: ts => (parseF f (PJob.term ts)).bind (fun p => parseF f (PJob.exprRest (a - p.1) p.2))
      | _ => some (a, ts)
    | PJob.term ts => (parseF f (PJob.unary ts)).bind (fun p => parseF f (PJob.termRest p.1 p.2))
    | PJob.termRest a ts =>
      match ts with
      | Tok.star :: ts => (parseF f (PJob.unary ts)).bind (fun p => parseF f (PJob.termRest (a * p.1) p.2))
      | Tok.slash :: ts => (parseF f (PJob.unary ts)).bind
          (fun p => if p.1 = 0 then none else parseF f (PJob.termRest (a / p.1) p.2))
      | _ => some (a, ts)
    | PJob.unary ts =>
      match ts with
      | Tok.minus :: ts => (parseF f (PJob.unary ts)).map (fun p => (-p.1, p.2))
      | _ => parseF f (PJob.pw ts)
    | PJob.pw ts => (parseF f (PJob.atom ts)).bind (fun p => parseF f (PJob.pwRest p.1 p.2))
    | PJob.pwRest a ts =>
      match ts with
      | Tok.caret :: ts => (parseF f (PJob.unary ts)).bind
          (fun p => (qpow a p.1).map (fun v => (v, p.2)))
      | _ => some (a, ts)
    | PJob.atom ts =>
      match ts with
      | Tok.num q :: ts => some (q, ts)
      | Tok.lparen :: ts => (parseF f (PJob.expr ts)).bind
          (fun p => match p.2 with
                    | Tok.rparen :: ts => some (p.1, ts)
                    | _ => none)
      | _ => none

/-- Modelled from the spec (§4.2 steps 1-3): `meval::eval_str` on an
already glyph-normalised string — tokenize, parse the full input as one
expression, and return its exact value, or `none` on any lexing,
parsing, or evaluation failure. -/
def mevalEvalStr (cs : List Char) : Option ℚ :=
  (tokA LexMode.top cs).bind (fun ts =>
    (parseF (8 * ts.length + 8) (PJob.expr ts)).bind (fun p =>
      if p.2 = [] then some p.1 else none))

/-- Remove trailing zero digits: `stripTZ fp k` interprets `fp` as a
`k`-digit fraction and drops trailing zero digits, returning the
remaining fraction value and digit count. -/
def stripTZ : ℕ → ℕ → ℕ × ℕ
  | fp, 0 => (fp, 0)
  | fp, k + 1 => if fp % 10 = 0 then stripTZ (fp / 10) k else (fp, k + 1)

/-- Big-endian decimal digit characters of `n`, accumulated onto `acc`;
the first argument is recursion fuel. -/
def natToDigitsAux : ℕ → ℕ → List Char → List Char
  | 0, _, acc => acc
  | f + 1, n, acc => if n = 0 then acc else natToDigitsAux f (n / 10) (digitChar (n % 10) :: acc)

/-- Decimal digit characters of a natural number. -/
def natToDigits (n : ℕ) : List Char :=
  if n = 0 then ['0'] else natToDigitsAux (n + 1) n []

/-- Fractional digit characters of `fp` (an eight-digit fraction):
trailing zero digits removed, leading zeros kept. -/
def fracChars (fp : ℕ) : List Char :=
  let p := stripTZ fp 8
  List.replicate (p.2 - (natToDigits p.1).length) '0' ++ natToDigits p.1

/-- Modelled from the spec (§4.2 step 4): the decimal rendering of the
result whose value rounded to eight decimal digits is `n / 10^8` — an
integral rounded result is formatted with no decimal point, otherwise
the eight fractional digits are emitted with trailing zero digits
stripped. -/
def formatOfInt (n : ℤ) : List Char :=
  let m := n.natAbs
  let ip := m / 100000000
  let fp := m % 100000000
  (if n < 0 then ['-'] else []) ++
    (if fp = 0 then natToDigits ip else natToDigits ip ++ '.' :: fracChars fp)

/-- Modelled from the spec (§4.2 step 4): format a numeric result to
eight decimal digits of precision. -/
def formatResult (q : ℚ) : List Char := formatOfInt (round (q * 100000000))

/-- The Enter handler (main.rs lines 102-106): normalise the multiply
glyph, evaluate, and replace the buffer with the formatted result or the
error marker. -/
def evalStep (b : List Char) : List Char :=
  match mevalEvalStr (replaceMul b) with
  | some q => formatResult q
  | none => errorMarker

/-- The four commands the UI layer dispatches to the buffer core. -/
inductive Cmd
  | app (tok : List Char)
  | back
  | clear
  | eval

/-- One step of `AppState::update`'s buffer handling for one command. -/
def applyCmd (b : List Char) : Cmd → List Char
  | Cmd.app t => appendTok b t
  | Cmd.back => codeBackspace b
  | Cmd.clear => []
  | Cmd.eval => evalStep b

/-- A sequence of commands applied in order. -/
def applyCmds (b : List Char) (cs : List Cmd) : List Char :=
  List.foldl applyCmd b cs

/-- One decimal-digit step of reading a digit run: previous value `a`,
next digit character `c`. -/
def devalStep (a : ℕ) (c : Char) : ℕ := 10 * a + charToDigit c

attribute [local semireducible] Rat.mul Rat.inv Rat.add Rat.sub

/-- The character set that can actually occur in the buffer: digits,
point, parentheses, the four operator characters appended by `KEYS`
(`+ - × /`), the exponent character `^`, space, and the characters the
result formatter emits. -/
def allowedChars : List Char := str "0123456789.()+-×/^ "

/-- Modelled from the spec (§3): the symbol set the specification's
invariant claims, which lists the divide glyph but neither `/` nor `^`. -/
def specAllowedChars : List Char := str "0123456789.()+-×÷ "

/-- The buffer invariant that actually holds: the buffer is the error
marker, or every character is drawn from `allowedChars`. -/
def bufInv (b : List Char) : Prop :=
  b = errorMarker ∨ ∀ c ∈ b, c ∈ allowedChars

/-- Modelled from the spec (§3): the invariant as the specification
states it, over its claimed symbol set. -/
def specBufInv (b : List Char) : Prop :=
  b = errorMarker ∨ ∀ c ∈ b, c ∈ specAllowedChars

lemma one_le_charBytes (c : Char) : 1 ≤ charBytes c := by
  unfold charBytes
  repeat' split
  all_goals omega

lemma utf8Len_cons (c : Char) (cs : List Char) :
    utf8Len (c :: cs) = charBytes c + utf8Len cs := by
  simp [utf8Len]

lemma graphemeIndicesAux_fst_lt (l : List Char) :
    ∀ off p, p ∈ graphemeIndicesAux off l → p.1 < off + utf8Len l := by
  induction l with
  | nil => intro off p hp; simp [graphemeIndicesAux] at hp
  | cons c cs ih =>
    intro off p hp
    rw [graphemeIndicesAux] at hp
    rcases List.mem_cons.mp hp with rfl | hp
    · have h1 := one_le_charBytes c
      have h2 : 0 ≤ utf8Len cs := Nat.zero_le _
      rw [utf8Len_cons]; omega
    · have := ih (off + charBytes c) p hp
      rw [utf8Len_cons]; omega

lemma graphemeIndicesAux_map_snd : ∀ (l : List Char) (off : ℕ),
    (graphemeIndicesAux off l).map Prod.snd = l := by
  intro l
  induction l with
  | nil => intro off; rfl
  | cons c cs ih => intro off; simp [graphemeIndicesAux, ih]

/-- The filter in the Backspace handler keeps every grapheme: a
grapheme's starting byte index is always strictly below the string's
byte length, so backspace reduces to the trailing-whitespace trim. -/
lemma codeBackspace_eq_trimEnd (b : List Char) : codeBackspace b = trimEnd b := by
  show ((graphemeIndicesAux 0 (trimEnd b)).filter
      (fun p => p.1 != utf8Len (trimEnd b))).map Prod.snd = trimEnd b
  have hall : ∀ p ∈ graphemeIndicesAux 0 (trimEnd b),
      (p.1 != utf8Len (trimEnd b)) = true := by
    intro p hp
    have := graphemeIndicesAux_fst_lt (trimEnd b) 0 p hp
    simp only [bne_iff_ne, ne_eq]
    omega
  rw [List.filter_eq_self.mpr hall, graphemeIndicesAux_map_snd]

lemma mem_trimEnd {c : Char} {b : List Char} (h : c ∈ trimEnd b) : c ∈ b := by
  unfold trimEnd at h
  rw [List.mem_reverse] at h
  have := (List.dropWhile_sublist (l := b.reverse) (p := isWsChar)).mem h
  rwa [List.mem_reverse] at this

lemma head?_dropWhile_not (p : α → Bool) :
    ∀ (l : List α) (x : α), (l.dropWhile p).head? = some x → p x = false := by
  intro l
  induction l with
  | nil => intro x h; simp [List.dropWhile] at h
  | cons a l ih =>
    intro x h
    rw [List.dropWhile_cons] at h
    by_cases hp : p a
    · rw [if_pos hp] at h; exact ih x h
    · rw [if_neg hp] at h
      simp only [List.head?_cons, Option.some.injEq] at h
      subst h
      exact Bool.not_eq_true _ ▸ (by simpa using hp)

lemma trimEnd_getLast?_not_ws (b : List Char) (x : Char)
    (h : (trimEnd b).getLast? = some x) : isWsChar x = false := by
  unfold trimEnd at h
  rw [List.getLast?_reverse] at h
  exact head?_dropWhile_not isWsChar b.reverse x h

lemma validTokens_facts : ∀ t ∈ validTokens,
    t ≠ [] ∧ t.getLast? ≠ some 'r' ∧ ∀ c ∈ t, c ∈ allowedChars := by decide

lemma append_tok_ne_errorMarker (b t : List Char) (ht : t ∈ validTokens) :
    b ++ t ≠ errorMarker := by
  intro h
  obtain ⟨hne, hlast, -⟩ := validTokens_facts t ht
  have h2 : (b ++ t).getLast? = errorMarker.getLast? := by rw [h]
  rw [List.getLast?_append] at h2
  rcases h3 : t.getLast? with - | x
  · exact hne (List.getLast?_eq_none_iff.mp h3)
  · rw [h3] at h2
    simp only [Option.or_some] at h2
    apply hlast
    rw [h3, h2]
    decide

lemma digit_facts : ∀ d : ℕ, d < 10 →
    isDigitChar (digitChar d) = true ∧ charToDigit (digitChar d) = d ∧
    isWsChar (digitChar d) = false ∧ digitChar d ∈ str "0123456789" := by decide

lemma natToDigitsAux_eq : ∀ (fuel n : ℕ) (acc : List Char), n < 10 ^ fuel →
    natToDigitsAux fuel n acc = ((Nat.digits 10 n).map digitChar).reverse ++ acc := by
  intro fuel
  induction fuel with
  | zero =>
    intro n acc h
    interval_cases n
    simp [natToDigitsAux]
  | succ f ih =>
    intro n acc h
    by_cases hn : n = 0
    · subst hn; simp [natToDigitsAux]
    · rw [natToDigitsAux, if_neg hn]
      have hlt : n / 10 < 10 ^ f := by
        rw [Nat.div_lt_iff_lt_mul (by norm_num)]
        calc n < 10 ^ (f + 1) := h
          _ = 10 ^ f * 10 := by ring
      rw [ih (n / 10) _ hlt]
      rw [Nat.digits_def' (by norm_num : (1:ℕ) < 10) (Nat.pos_of_ne_zero hn)]
      simp [List.reverse_cons]

lemma natToDigits_eq (n : ℕ) :
    natToDigits n = if n = 0 then ['0'] else ((Nat.digits 10 n).map digitChar).reverse := by
  unfold natToDigits
  by_cases hn : n = 0
  · simp [hn]
  · rw [if_neg hn, if_neg hn]
    have hbig : n < 10 ^ (n + 1) := by
      calc n < 2 ^ n := Nat.lt_two_pow n
        _ ≤ 10 ^ n := Nat.pow_le_pow_left (by norm_num) n
        _ ≤ 10 ^ (n + 1) := Nat.pow_le_pow_right (by norm_num) (Nat.le_succ n)
    rw [natToDigitsAux_eq (n + 1) n [] hbig]
    simp

lemma mem_natToDigits_digit (n : ℕ) : ∀ c ∈ natToDigits n, ∃ d, d < 10 ∧ c = digitChar d := by
  rw [natToDigits_eq]
  by_cases hn : n = 0
  · rw [if_pos hn]
    intro c hc
    rw [List.mem_singleton] at hc
    exact ⟨0, by norm_num, hc⟩
  · rw [if_neg hn]
    intro c hc
    rw [List.mem_reverse, List.mem_map] at hc
    obtain ⟨d, hd, rfl⟩ := hc
    exact ⟨d, Nat.digits_lt_base (by norm_num) hd, rfl⟩

lemma natToDigits_all_digits (n : ℕ) : ∀ c ∈ natToDigits n, isDigitChar c = true := by
  intro c hc
  obtain ⟨d, hd, rfl⟩ := mem_natToDigits_digit n c hc
  exact (digit_facts d hd).1

lemma foldl_devalStep_digits : ∀ (L : List ℕ), (∀ d ∈ L, d < 10) → ∀ A : ℕ,
    List.foldl devalStep A ((L.map digitChar).reverse) =
      A * 10 ^ L.length + Nat.ofDigits 10 L := by
  intro L
  induction L with
  | nil => intro h A; simp [Nat.ofDigits_nil]
  | cons d L ih =>
    intro h A
    have hd : d < 10 := h d (List.mem_cons_self d L)
    simp only [List.map_cons, List.reverse_cons]
    rw [List.foldl_append]
    rw [ih (fun x hx => h x (List.mem_cons_of_mem _ hx)) A]
    simp only [List.foldl_cons, List.foldl_nil]
    unfold devalStep
    rw [(digit_facts d hd).2.1, Nat.ofDigits_cons]
    simp only [List.length_cons]
    ring

lemma foldl_natToDigits (n : ℕ) : List.foldl devalStep 0 (natToDigits n) = n := by
  rw [natToDigits_eq]
  by_cases hn : n = 0
  · subst hn; decide
  · rw [if_neg hn,
      foldl_devalStep_digits _ (fun d hd => Nat.digits_lt_base (by norm_num) hd) 0]
    simp [Nat.ofDigits_digits]

lemma natToDigits_length_le {n k : ℕ} (hk : n < 10 ^ k) (hn : n ≠ 0) :
    (natToDigits n).length ≤ k := by
  rw [natToDigits_eq, if_neg hn]
  simp only [List.length_reverse, List.length_map]
  rw [Nat.digits_len 10 n (by norm_num) hn]
  have := (Nat.lt_pow_iff_log_lt (by norm_num : 1 < 10) hn).mp hk
  omega

lemma natToDigits_ne_nil (n : ℕ) : natToDigits n ≠ [] := by
  rw [natToDigits_eq]
  by_cases hn : n = 0
  · simp [hn]
  · rw [if_neg hn]
    simp only [ne_eq, List.reverse_eq_nil_iff, List.map_eq_nil_iff]
    exact Nat.digits_ne_nil_iff_ne_zero.mpr hn

lemma not_ws_of_digit {c : Char} (h : isDigitChar c = true) : isWsChar c = false := by
  by_contra hw
  rw [Bool.not_eq_false] at hw
  unfold isWsChar at hw
  simp only [Bool.or_eq_true, decide_eq_true_eq] at hw
  rcases hw with ((rfl | rfl) | rfl) | rfl <;> (revert h; decide)

lemma not_dot_of_digit {c : Char} (h : isDigitChar c = true) : c ≠ '.' := by
  intro hc
  subst hc
  revert h
  decide

lemma tokA_innum_run : ∀ (ds : List Char), (∀ c ∈ ds, isDigitChar c = true) →
    ∀ (n : ℕ) (rest : List Char),
    tokA (LexMode.innum n) (ds ++ rest) =
      tokA (LexMode.innum (List.foldl devalStep n ds)) rest := by
  intro ds
  induction ds with
  | nil => intro h n rest; simp
  | cons c cs ih =>
    intro h n rest
    have hc := h c (List.mem_cons_self c cs)
    have hw := not_ws_of_digit hc
    rw [List.cons_append, tokA, if_neg (by simp [hw]), if_pos hc]
    exact ih (fun x hx => h x (List.mem_cons_of_mem _ hx)) (devalStep n c) rest

lemma tokA_infrac_run : ∀ (ds : List Char), (∀ c ∈ ds, isDigitChar c = true) →
    ∀ (ip f k : ℕ) (rest : List Char),
    tokA (LexMode.infrac ip f k) (ds ++ rest) =
      tokA (LexMode.infrac ip (List.foldl devalStep f ds) (k + ds.length)) rest := by
  intro ds
  induction ds with
  | nil => intro h ip f k rest; simp
  | cons c cs ih =>
    intro h ip f k rest
    have hc := h c (List.mem_cons_self c cs)
    have hw := not_ws_of_digit hc
    rw [List.cons_append, tokA, if_neg (by simp [hw]), if_pos hc]
    have := ih (fun x hx => h x (List.mem_cons_of_mem _ hx)) ip (devalStep f c) (k + 1) rest
    rw [show k + (c :: cs).length = k + 1 + cs.length by simp [List.length_cons]; omega]
    exact this

lemma tokA_top_digits : ∀ (ds : List Char), ds ≠ [] →
    (∀ c ∈ ds, isDigitChar c = true) → ∀ rest,
    tokA LexMode.top (ds ++ rest) =
      tokA (LexMode.innum (List.foldl devalStep 0 ds)) rest := by
  intro ds hne h rest
  match ds, hne with
  | c :: cs, _ =>
    have hc := h c (List.mem_cons_self c cs)
    have hw := not_ws_of_digit hc
    rw [List.cons_append, tokA, if_neg (by simp [hw]), if_pos hc, List.foldl_cons]
    have h0 : devalStep 0 c = charToDigit c := by unfold devalStep; omega
    rw [← h0]
    exact tokA_innum_run cs (fun x hx => h x (List.mem_cons_of_mem _ hx)) (devalStep 0 c) rest

lemma foldl_devalStep_zeros : ∀ j : ℕ, ∀ A : List Char,
    A = List.replicate j '0' → List.foldl devalStep 0 A = 0 := by
  intro j
  induction j with
  | zero => intro A hA; subst hA; rfl
  | succ k ih =>
    intro A hA
    subst hA
    rw [List.replicate_succ, List.foldl_cons]
    exact ih _ rfl

lemma stripTZ_spec : ∀ (k fp : ℕ),
    (stripTZ fp k).1 * 10 ^ (k - (stripTZ fp k).2) = fp ∧
    (stripTZ fp k).2 ≤ k ∧
    ((stripTZ fp k).1 = 0 → fp = 0) ∧
    (fp < 10 ^ k → (stripTZ fp k).2 = 0 → fp = 0) ∧
    (fp < 10 ^ k → (stripTZ fp k).1 < 10 ^ (stripTZ fp k).2 ∨ (stripTZ fp k).2 = 0) := by
  intro k
  induction k with
  | zero =>
    intro fp
    refine ⟨by simp [stripTZ], le_refl 0, fun h => h, ?_, fun _ => Or.inr rfl⟩
    intro h _
    simpa using h
  | succ k ih =>
    intro fp
    by_cases h : fp % 10 = 0
    · rw [stripTZ, if_pos h]
      obtain ⟨hval, hk2, hz, hz0, hb⟩ := ih (fp / 10)
      have hdvd : fp / 10 * 10 = fp := Nat.div_mul_cancel (Nat.dvd_of_mod_eq_zero h)
      have hsub : k + 1 - (stripTZ (fp / 10) k).2 = (k - (stripTZ (fp / 10) k).2) + 1 := by
        omega
      have hdivlt : fp < 10 ^ (k + 1) → fp / 10 < 10 ^ k := by
        intro hfp
        rw [Nat.div_lt_iff_lt_mul (by norm_num)]
        calc fp < 10 ^ (k + 1) := hfp
          _ = 10 ^ k * 10 := by ring
      refine ⟨?_, le_trans hk2 (Nat.le_succ k), ?_, ?_, ?_⟩
      · rw [hsub, pow_succ, ← mul_assoc, hval, hdvd]
      · intro hone
        rw [← hdvd, hz hone, zero_mul]
      · intro hfp hk0
        rw [← hdvd, hz0 (hdivlt hfp) hk0, zero_mul]
      · intro hfp
        exact hb (hdivlt hfp)
    · rw [stripTZ, if_neg h]
      refine ⟨by simp, le_refl _, ?_, ?_, ?_⟩
      · intro hz; exact hz
      · intro _ hk0; omega
      · intro hfp; exact Or.inl hfp

lemma fracChars_spec (fp : ℕ) (hfp : fp ≠ 0) (hlt : fp < 100000000) :
    (∀ c ∈ fracChars fp, isDigitChar c = true) ∧
    List.foldl devalStep 0 (fracChars fp) = (stripTZ fp 8).1 ∧
    (fracChars fp).length = (stripTZ fp 8).2 ∧
    (stripTZ fp 8).2 ≠ 0 ∧ (stripTZ fp 8).2 ≤ 8 ∧
    (stripTZ fp 8).1 * 10 ^ (8 - (stripTZ fp 8).2) = fp := by
  have hlt8 : fp < 10 ^ 8 := by norm_num; exact hlt
  obtain ⟨hval, hk2, hz, hz0, hb⟩ := stripTZ_spec 8 fp
  have hk2ne : (stripTZ fp 8).2 ≠ 0 := fun h0 => hfp (hz0 hlt8 h0)
  have hfp2ne : (stripTZ fp 8).1 ≠ 0 := fun h0 => hfp (hz h0)
  have hfp2lt : (stripTZ fp 8).1 < 10 ^ (stripTZ fp 8).2 := by
    rcases hb hlt8 with hcase | hcase
    · exact hcase
    · exact absurd hcase hk2ne
  have hlen : (natToDigits (stripTZ fp 8).1).length ≤ (stripTZ fp 8).2 :=
    natToDigits_length_le hfp2lt hfp2ne
  refine ⟨?_, ?_, ?_, hk2ne, hk2, hval⟩
  · intro c hc
    unfold fracChars at hc
    rcases List.mem_append.mp hc with hrep | hntd
    · rw [List.eq_of_mem_replicate hrep]
      decide
    · exact natToDigits_all_digits _ c hntd
  · unfold fracChars
    rw [List.foldl_append, foldl_devalStep_zeros _ _ rfl, foldl_natToDigits]
  · unfold fracChars
    rw [List.length_append, List.length_replicate]
    omega

lemma tokA_format_nat (m : ℕ) :
    tokA LexMode.top
      (if m % 100000000 = 0 then natToDigits (m / 100000000)
       else natToDigits (m / 100000000) ++ '.' :: fracChars (m % 100000000)) =
      some [Tok.num ((m : ℚ) / 100000000)] := by
  by_cases h : m % 100000000 = 0
  · rw [if_pos h]
    have h1 := tokA_top_digits (natToDigits (m / 100000000)) (natToDigits_ne_nil _)
      (natToDigits_all_digits _) []
    rw [List.append_nil] at h1
    rw [h1, foldl_natToDigits]
    show some [Tok.num ((m / 100000000 : ℕ) : ℚ)] = some [Tok.num ((m : ℚ) / 100000000)]
    have hmnat : m = 100000000 * (m / 100000000) := by omega
    have hq : (m : ℚ) = 100000000 * ((m / 100000000 : ℕ) : ℚ) := by exact_mod_cast hmnat
    rw [hq, mul_div_cancel_left₀ _ (by norm_num : (100000000:ℚ) ≠ 0)]
  · rw [if_neg h]
    have hfplt : m % 100000000 < 100000000 := Nat.mod_lt _ (by norm_num)
    obtain ⟨hdig, hfold, hlen, hk2ne, hk2le, hvalnat⟩ := fracChars_spec _ h hfplt
    rw [tokA_top_digits _ (natToDigits_ne_nil _) (natToDigits_all_digits _) _,
      foldl_natToDigits]
    rw [tokA, if_neg (by decide), if_neg (by decide), if_pos rfl]
    have h2 := tokA_infrac_run (fracChars (m % 100000000)) hdig (m / 100000000) 0 0 []
    rw [List.append_nil] at h2
    rw [h2, hfold, Nat.zero_add, hlen]
    show flushTok (LexMode.infrac (m / 100000000) (stripTZ (m % 100000000) 8).1
      (stripTZ (m % 100000000) 8).2) [] = _
    rw [flushTok, if_neg hk2ne]
    congr 2
    unfold numTok
    congr 1
    have hmnat : m = 100000000 * (m / 100000000) +
        (stripTZ (m % 100000000) 8).1 * 10 ^ (8 - (stripTZ (m % 100000000) 8).2) := by
      rw [hvalnat]; omega
    have hq : (m : ℚ) = 100000000 * ((m / 100000000 : ℕ) : ℚ) +
        ((stripTZ (m % 100000000) 8).1 : ℚ) * 10 ^ (8 - (stripTZ (m % 100000000) 8).2) := by
      exact_mod_cast hmnat
    have hpow : ((10:ℚ)) ^ (stripTZ (m % 100000000) 8).2 *
        10 ^ (8 - (stripTZ (m % 100000000) 8).2) = 10 ^ 8 := by
      rw [← pow_add]
      congr 1
      omega
    rw [hq]
    have hne1 : ((10:ℚ)) ^ (stripTZ (m % 100000000) 8).2 ≠ 0 := by positivity
    field_simp
    linear_combination (-((stripTZ (m % 100000000) 8).1 : ℚ)) * hpow

lemma tokA_minus (cs : List Char) : tokA LexMode.top ('-' :: cs) =
    (tokA LexMode.top cs).bind (fun ts => some (Tok.minus :: ts)) := by
  rw [tokA, if_neg (by decide), if_neg (by decide), if_neg (by decide)]
  rfl

lemma formatOfInt_eq (n : ℤ) : formatOfInt n =
    (if n < 0 then ['-'] else []) ++
      (if n.natAbs % 100000000 = 0 then natToDigits (n.natAbs / 100000000)
       else natToDigits (n.natAbs / 100000000) ++ '.' :: fracChars (n.natAbs % 100000000)) := rfl

lemma tokA_format (n : ℤ) : tokA LexMode.top (formatOfInt n) =
    some (if n < 0 then [Tok.minus, Tok.num ((n.natAbs : ℚ) / 100000000)]
          else [Tok.num ((n.natAbs : ℚ) / 100000000)]) := by
  rw [formatOfInt_eq]
  by_cases h : n < 0
  · rw [if_pos h, if_pos h, List.singleton_append, tokA_minus, tokA_format_nat]
    rfl
  · rw [if_neg h, if_neg h, List.nil_append, tokA_format_nat]

lemma mevalEvalStr_format (n : ℤ) :
    mevalEvalStr (formatOfInt n) = some ((n : ℚ) / 100000000) := by
  unfold mevalEvalStr
  rw [tokA_format]
  by_cases h : n < 0
  · rw [if_pos h]
    have hzq : ((n.natAbs : ℚ)) = -(n : ℚ) := by
      rw [Int.cast_natAbs, abs_of_neg h, Int.cast_neg]
    have hv : ((n.natAbs : ℚ) / 100000000 : ℚ) = -((n : ℚ) / 100000000) := by
      rw [hzq]
      ring
    rw [hv]
    show some (-(-((n : ℚ) / 100000000))) = some ((n : ℚ) / 100000000)
    rw [neg_neg]
  · rw [if_neg h]
    have hv : ((n.natAbs : ℚ)) = (n : ℚ) := by
      rw [Int.cast_natAbs, abs_of_nonneg (not_lt.mp h)]
    rw [hv]
    rfl

lemma digits_subset_result : ∀ x ∈ str "0123456789", x ∈ str "-.0123456789" := by decide

lemma mem_formatOfInt (n : ℤ) : ∀ c ∈ formatOfInt n, c ∈ str "-.0123456789" := by
  intro c hc
  rw [formatOfInt_eq] at hc
  rcases List.mem_append.mp hc with hs | hb
  · by_cases h : n < 0
    · rw [if_pos h, List.mem_singleton] at hs
      subst hs
      decide
    · rw [if_neg h] at hs
      simp at hs
  · by_cases h2 : n.natAbs % 100000000 = 0
    · rw [if_pos h2] at hb
      obtain ⟨d, hd, rfl⟩ := mem_natToDigits_digit _ c hb
      exact digits_subset_result _ (digit_facts d hd).2.2.2
    · rw [if_neg h2] at hb
      rcases List.mem_append.mp hb with hip | hfrac
      · obtain ⟨d, hd, rfl⟩ := mem_natToDigits_digit _ c hip
        exact digits_subset_result _ (digit_facts d hd).2.2.2
      · rcases List.mem_cons.mp hfrac with rfl | hfc
        · decide
        · unfold fracChars at hfc
          rcases List.mem_append.mp hfc with hrep | hntd
          · rw [List.eq_of_mem_replicate hrep]
            decide
          · obtain ⟨d, hd, rfl⟩ := mem_natToDigits_digit _ c hntd
            exact digits_subset_result _ (digit_facts d hd).2.2.2

lemma not_times_formatOfInt (n : ℤ) : '×' ∉ formatOfInt n := by
  intro h
  have h2 := mem_formatOfInt n _ h
  revert h2
  decide

lemma replaceCharAll_of_not_mem (p r : Char) : ∀ l : List Char, p ∉ l →
    replaceCharAll p r l = l := by
  intro l
  induction l with
  | nil => intro h; rfl
  | cons c cs ih =>
    intro h
    rw [List.mem_cons] at h
    push_neg at h
    rw [replaceCharAll, if_neg (fun hh => h.1 hh.symm), ih h.2]

lemma set_subset_allowed : ∀ x ∈ str "-.0123456789", x ∈ allowedChars := by decide

lemma bufInv_appendTok {b : List Char} (hb : bufInv b) {t : List Char}
    (ht : t ∈ validTokens) : bufInv (appendTok b t) := by
  right
  intro c hc
  unfold appendTok at hc
  rcases List.mem_append.mp hc with hcb | hct
  · by_cases h : b = errorMarker
    · rw [if_pos h] at hcb
      simp at hcb
    · rw [if_neg h] at hcb
      rcases hb with hb | hb
      · exact absurd hb h
      · exact hb c hcb
  · exact (validTokens_facts t ht).2.2 c hct

lemma bufInv_backspace {b : List Char} (hb : bufInv b) : bufInv (codeBackspace b) := by
  rw [codeBackspace_eq_trimEnd]
  rcases hb with hb | hb
  · left
    rw [hb]
    decide
  · right
    intro c hc
    exact hb c (mem_trimEnd hc)

lemma bufInv_evalStep (b : List Char) : bufInv (evalStep b) := by
  unfold evalStep
  cases hm : mevalEvalStr (replaceMul b) with
  | none => left; rfl
  | some q =>
    right
    intro c hc
    unfold formatResult at hc
    exact set_subset_allowed c (mem_formatOfInt _ c hc)

lemma bufInv_applyCmds : ∀ (cmds : List Cmd) (b : List Char), bufInv b →
    (∀ t, Cmd.app t ∈ cmds → t ∈ validTokens) → bufInv (applyCmds b cmds) := by
  intro cmds
  induction cmds with
  | nil => intro b hb _; exact hb
  | cons cm rest ih =>
    intro b hb h
    show bufInv (applyCmds (applyCmd b cm) rest)
    refine ih (applyCmd b cm) ?_ (fun t ht => h t (List.mem_cons_of_mem _ ht))
    cases cm with
    | app t => exact bufInv_appendTok hb (h t (List.mem_cons_self _ _))
    | back => exact bufInv_backspace hb
    | clear => right; intro c hc; exact absurd hc (List.not_mem_nil c)
    | eval => exact bufInv_evalStep b

lemma count_replaceCharAll {p r t : Char} (hp : t ≠ p) (hr : t ≠ r) :
    ∀ l : List Char, (replaceCharAll p r l).count t = l.count t := by
  intro l
  induction l with
  | nil => rfl
  | cons c cs ih =>
    rw [replaceCharAll]
    by_cases h : c = p
    · rw [if_pos h, List.count_cons, List.count_cons, ih, h]
      rw [if_neg (by simp only [beq_iff_eq]; exact fun hh => hr hh.symm),
        if_neg (by simp only [beq_iff_eq]; exact fun hh => hp hh.symm)]
    · rw [if_neg h, List.count_cons, List.count_cons, ih]

/-- Claim C1: the claim says `backspace()` strips trailing whitespace and
then removes exactly the last grapheme cluster of a non-empty buffer.
The Backspace handler's filter keeps every grapheme whose starting byte
index differs from the string's byte length, and a grapheme's starting
index is always strictly smaller than that length, so the filter keeps
everything: on the buffer `"5"` the handler leaves `"5"` (zero graphemes
removed), and in general it only strips trailing whitespace.  This
evaluates the code at the failing input. -/
theorem c1_backspace_removes_no_grapheme :
    codeBackspace (str "5") = str "5" ∧ ∀ b, codeBackspace b = trimEnd b :=
  ⟨by decide, codeBackspace_eq_trimEnd⟩

/-- Claim C2 counterexample: the claim says every occurrence of the
divide glyph `÷` becomes `/` before parsing; the Enter handler only
replaces `×`, so on `"6 ÷ 2"` the code's normalisation differs from the
claimed one. -/
theorem c2_divide_glyph_not_normalized :
    replaceMul (str "6 ÷ 2") ≠ specNormalize (str "6 ÷ 2") := by decide

/-- Claim C2 (amended): evaluation normalises only the multiply glyph
`×` to `*`; the divide glyph `÷` is left in place (its occurrence count
is preserved), as on `"6 × 2 ÷ 3"`. -/
theorem c2_only_multiply_glyph_normalized :
    (∀ b : List Char, (replaceMul b).count '÷' = b.count '÷') ∧
      replaceMul (str "6 × 2 ÷ 3") = str "6 * 2 ÷ 3" :=
  ⟨fun b => count_replaceCharAll (by decide) (by decide) b, by decide⟩

/-- Claim C3: an integral result is formatted with no decimal point
(`"7 + 3"` evaluates to `"10"`, `"4 / 2"` to `"2"`), and a non-integral
result is formatted to eight decimal digits with trailing zero digits
stripped (`"1 / 3"` becomes exactly `"0.33333333"`). -/
theorem c3_result_formatting :
    applyCmds (str "") [Cmd.app (str "7"), Cmd.app (str " + "), Cmd.app (str "3"),
        Cmd.eval] = str "10" ∧
      evalStep (str "4 / 2") = str "2" ∧
      evalStep (str "1 / 3") = str "0.33333333" :=
  ⟨by decide, by decide, by decide⟩

/-- Claim C4: a division by zero (a non-finite numeric result) makes
`evaluate()` replace the buffer with the error marker, exactly the same
output as a parse failure such as `"("`. -/
theorem c4_division_by_zero_is_error :
    evalStep (str "1 / 0") = errorMarker ∧
      evalStep (str "1 / 0") = evalStep (str "(") :=
  ⟨by decide, by decide⟩

/-- Claim C5 counterexample: the claim says that after removal a buffer
ending in an operator gets a single trailing space re-appended, so that
`backspace()` on `"5 + "` yields `"5 + "`; the handler appends nothing,
and on `"5 + "` it produces `"5 +"`. -/
theorem c5_no_respacing_counterexample :
    codeBackspace (str "5 + ") ≠ str "5 + " := by decide

/-- Claim C5 (amended): `backspace()` never appends a trailing space:
its result never ends in whitespace, and on the buffer `"5 + "` it
yields `"5 +"`. -/
theorem c5_backspace_appends_no_space :
    codeBackspace (str "5 + ") = str "5 +" ∧
      ∀ b x, (codeBackspace b).getLast? = some x → isWsChar x = false :=
  ⟨by decide, fun b x h => trimEnd_getLast?_not_ws b x (codeBackspace_eq_trimEnd b ▸ h)⟩

/-- Claim C5 witness: the amended theorem applied to the concrete buffer
`"5 + "`, whose backspace result ends in `'+'`. -/
theorem c5_backspace_appends_no_space_witness : isWsChar '+' = false :=
  c5_backspace_appends_no_space.2 (str "5 + ") '+' (by decide)

/-- Claim C6: for every sequence of appended tokens, the buffer is the
concatenation of the tokens' literal forms, except that a buffer equal
to the error marker is reset to empty at the first append; no later
intermediate buffer can equal the error marker because every token ends
in a character different from `'r'`. -/
theorem c6_append_concatenation :
    ∀ (b : List Char) (ts : List (List Char)), (∀ t ∈ ts, t ∈ validTokens) →
    List.foldl appendTok b ts =
      (if b = errorMarker ∧ ts ≠ [] then [] else b) ++ ts.flatten := by
  intro b ts
  induction ts generalizing b with
  | nil => intro _; simp
  | cons t ts ih =>
    intro h
    rw [List.foldl_cons, ih (appendTok b t) (fun x hx => h x (List.mem_cons_of_mem _ hx))]
    have hne : appendTok b t ≠ errorMarker :=
      append_tok_ne_errorMarker _ _ (h t (List.mem_cons_self t ts))
    rw [if_neg (fun hcon => hne hcon.1)]
    unfold appendTok
    by_cases hb : b = errorMarker
    · rw [if_pos hb, if_pos ⟨hb, by simp⟩]
      simp
    · rw [if_neg hb, if_neg (fun hcon => hb hcon.1)]
      simp

/-- Claim C6 witness: from the buffer `"Error"`, appending `"9"` yields
`"9"`, not `"Error9"`. -/
theorem c6_append_concatenation_witness :
    List.foldl appendTok errorMarker [str "9"] = str "9" := by
  rw [c6_append_concatenation errorMarker [str "9"] (by decide)]
  decide

/-- Claim C7: a buffer that fails to parse is replaced by the literal
error marker: the scenario append `"("`, append `"5"`, evaluate leaves
`"Error"`, and so do the empty buffer and an operator-only buffer. -/
theorem c7_parse_failure_is_error :
    applyCmds (str "") [Cmd.app (str "("), Cmd.app (str "5"), Cmd.eval] = errorMarker ∧
      evalStep (str "") = errorMarker ∧
      evalStep (str " + ") = errorMarker :=
  ⟨by decide, by decide, by decide⟩

/-- Claim C8 counterexample: the specification's symbol set omits `'^'`
(and `'/'`), yet the exponent key appends the token `" ^ "`: after one
append from the empty buffer the claimed invariant is already violated. -/
theorem c8_claimed_symbol_set_violated :
    ¬ specBufInv (applyCmds (str "") [Cmd.app (str " ^ ")]) := by
  unfold specBufInv
  decide

/-- Claim C8 (amended): starting from the empty buffer, after any
sequence of append (with key tokens), backspace, clear, and evaluate
commands, the buffer is either the error marker or consists only of
characters from the key tokens and the result formatter: digits, `.`,
parentheses, `+ - × / ^`, and space. -/
theorem c8_buffer_invariant :
    ∀ (cmds : List Cmd), (∀ t, Cmd.app t ∈ cmds → t ∈ validTokens) →
    bufInv (applyCmds (str "") cmds) := by
  intro cmds h
  refine bufInv_applyCmds cmds (str "") ?_ h
  right
  intro c hc
  exact absurd hc (List.not_mem_nil c)

/-- Claim C8 witness: the amended invariant applied to the command
sequence append `"1"`, evaluate. -/
theorem c8_buffer_invariant_witness :
    bufInv (applyCmds (str "") [Cmd.app (str "1"), Cmd.eval]) :=
  c8_buffer_invariant [Cmd.app (str "1"), Cmd.eval] (by
    intro t ht
    simp only [List.mem_cons, List.not_mem_nil, or_false, Cmd.app.injEq] at ht
    rcases ht with rfl | ht
    · decide
    · exact absurd ht (by simp))

/-- Claim C9: evaluation is idempotent on success: a buffer holding a
formatted numeric result (the formatter's output for any rational
result) evaluates to exactly the same string. -/
theorem c9_evaluate_idempotent_on_result (q : ℚ) :
    evalStep (formatResult q) = formatResult q := by
  have hrepl : replaceMul (formatResult q) = formatResult q :=
    replaceCharAll_of_not_mem '×' '*' _ (not_times_formatOfInt _)
  unfold evalStep replaceMul at hrepl ⊢
  rw [hrepl]
  unfold formatResult
  rw [mevalEvalStr_format]
  show formatResult ((round (q * 100000000) : ℚ) / 100000000) =
    formatOfInt (round (q * 100000000))
  unfold formatResult
  congr 1
  rw [div_mul_cancel₀ _ (by norm_num : (100000000:ℚ) ≠ 0), round_intCast]

/-- Claim C10: when the buffer already holds the error marker, pressing
Enter evaluates the text `"Error"`, which is not a parseable expression,
so the buffer stays `"Error"`. -/
theorem c10_error_marker_stays_error : evalStep errorMarker = errorMarker := by decide
